import Mathlib

/-!
# Verification of the bdk spending-policy compiler and witness planner

This development embeds, in Lean 4, the data model and operations of the
spending-policy compiler / witness planner exercised by
`crates/wallet/examples/descriptor_with_plan.rs`:

* the **Condition Model** (policy trees over keys, timelocks, hash
  preimages and thresholds) with its construction-time validation and its
  canonical script serialization;
* the **Policy Compiler** (policy expressions lowered to condition trees,
  `and`/`or` desugared to thresholds);
* the **Asset Set** and the **Planner** (backtracking search for the
  lowest-cost consistent satisfying assignment, with global locktime
  consistency);
* the **Finalizer** (independent re-evaluation of the condition tree
  against actual signature/preimage bytes);
* the example's own helper functions `get_vout` and `deposit_transaction`,
  translated directly from the Rust source.

The engine itself (compiler, planner, finalizer) lives in the miniscript
dependency and is not part of the repository's sources; those components
are modelled from the specification, as noted on each definition.  The
helpers `get_vout`, `deposit_transaction`, `blank_transaction` and
`blank_transaction_with` are translated from the Rust example file.
-/

namespace BdkPlan

/-! ## Condition Model

Modelled from the spec: a `Condition` is one of `Key(identity)`,
`After(height)`, `Older(relative_blocks)`, `Hash(digest)` or
`Threshold(k, children)`.  Identities and digests are abstracted as
natural numbers (the example's identities are compressed public keys,
which we read as their hexadecimal value). -/

inductive Condition : Type where
  | key (id : Nat)
  | after (height : Nat)
  | older (blocks : Nat)
  | hashCond (digest : Nat)
  | thresh (k : Nat) (children : List Condition)

/-- Modelled from the spec: the error taxonomy of §7 that the claims
touch.  `malformedCondition` is raised at construction time, `parseError`
and `compileError` by the compiler. -/
inductive PolicyError : Type where
  | malformedCondition
  | parseError
  | compileError
deriving DecidableEq

/-- Modelled from the spec: validated `Threshold` construction.  A
`Threshold` must have `0 < k <= len(children)` and at least one child,
else the tree is rejected at construction as `MalformedCondition`. -/
def mkThresh (k : Nat) (children : List Condition) :
    Except PolicyError Condition :=
  if 0 < k ∧ k ≤ children.length then
    .ok (.thresh k children)
  else
    .error .malformedCondition

mutual

/-- Modelled from the spec: a condition tree is well formed when every
`Threshold` node in it satisfies the construction-time bounds. -/
def wellFormed : Condition → Bool
  | .key _ => true
  | .after _ => true
  | .older _ => true
  | .hashCond _ => true
  | .thresh k cs => decide (0 < k ∧ k ≤ cs.length) && wellFormedList cs

/-- All members of a list of condition trees are well formed. -/
def wellFormedList : List Condition → Bool
  | [] => true
  | c :: cs => wellFormed c && wellFormedList cs

end

/-! ## Canonical script serialization

Modelled from the spec: the condition tree "is the canonical
representation of one locking script and must round-trip losslessly
to/from that script's serialized form".  We serialize to a token
sequence (`List Nat`): each node is a tag followed by its payload, and a
`Threshold` node records `k` and the child count before the serialized
children, making the encoding a prefix code. -/

mutual

/-- Canonical serialization of a condition tree to locking-script
tokens. -/
def serializeCond : Condition → List Nat
  | .key id => [0, id]
  | .after h => [1, h]
  | .older n => [2, n]
  | .hashCond d => [3, d]
  | .thresh k cs => 4 :: k :: cs.length :: serializeCondList cs

/-- Serialization of the children of a `Threshold`, in order. -/
def serializeCondList : List Condition → List Nat
  | [] => []
  | c :: cs => serializeCond c ++ serializeCondList cs

end

mutual

/-- Modelled from the spec: deserialization of one condition tree from
the front of a token sequence, returning the tree and the unread
suffix.  `fuel` bounds the recursion depth; `deserialize` supplies
enough for any input. -/
def parseCond : Nat → List Nat → Option (Condition × List Nat)
  | 0, _ => none
  | _ + 1, [] => none
  | fuel + 1, tag :: rest =>
    match tag with
    | 0 => match rest with
           | i :: r => some (.key i, r)
           | [] => none
    | 1 => match rest with
           | h :: r => some (.after h, r)
           | [] => none
    | 2 => match rest with
           | n :: r => some (.older n, r)
           | [] => none
    | 3 => match rest with
           | d :: r => some (.hashCond d, r)
           | [] => none
    | 4 => match rest with
           | k :: n :: r =>
             match parseCondList fuel n r with
             | some (cs, r2) => some (.thresh k cs, r2)
             | none => none
           | _ => none
    | _ => none

/-- Deserialize exactly `n` condition trees from the front of a token
sequence. -/
def parseCondList : Nat → Nat → List Nat → Option (List Condition × List Nat)
  | _, 0, inp => some ([], inp)
  | 0, _ + 1, _ => none
  | fuel + 1, n + 1, inp =>
    match parseCond fuel inp with
    | some (c, r) =>
      match parseCondList fuel n r with
      | some (cs, r2) => some (c :: cs, r2)
      | none => none
    | none => none

end

/-- Deserialize a whole locking script: the script must be consumed
exactly. -/
def deserialize (s : List Nat) : Option Condition :=
  match parseCond (s.length + 1) s with
  | some (c, []) => some c
  | _ => none

mutual

/-- Structural size of a condition tree (one per node). -/
def condSize : Condition → Nat
  | .key _ => 1
  | .after _ => 1
  | .older _ => 1
  | .hashCond _ => 1
  | .thresh _ cs => 1 + condSizeList cs

/-- Structural size of a list of condition trees. -/
def condSizeList : List Condition → Nat
  | [] => 0
  | c :: cs => 1 + condSize c + condSizeList cs

end

theorem parseCond_serializeCond :
    ∀ (c : Condition) (fuel : Nat) (rest : List Nat),
      condSize c ≤ fuel →
      parseCond fuel (serializeCond c ++ rest) = some (c, rest) := by
  have main :
      ∀ fuel : Nat,
        (∀ c : Condition, ∀ rest : List Nat, condSize c ≤ fuel →
          parseCond fuel (serializeCond c ++ rest) = some (c, rest)) ∧
        (∀ cs : List Condition, ∀ rest : List Nat, condSizeList cs ≤ fuel →
          parseCondList fuel cs.length (serializeCondList cs ++ rest) =
            some (cs, rest)) := by
    intro fuel
    induction fuel with
    | zero =>
      constructor
      · intro c rest h
        cases c <;> simp [condSize, condSizeList] at h
      · intro cs rest h
        cases cs with
        | nil => simp [parseCondList, serializeCondList]
        | cons c cs => simp [condSizeList] at h
    | succ f ih =>
      constructor
      · intro c rest h
        cases c with
        | key i => simp [serializeCond, parseCond]
        | after hh => simp [serializeCond, parseCond]
        | older n => simp [serializeCond, parseCond]
        | hashCond d => simp [serializeCond, parseCond]
        | thresh k cs =>
          have hcs : condSizeList cs ≤ f := by
            simp [condSize] at h
            omega
          simp [serializeCond, parseCond, ih.2 cs rest hcs]
      · intro cs rest h
        cases cs with
        | nil => simp [parseCondList, serializeCondList]
        | cons c cs =>
          have hc : condSize c ≤ f := by
            simp [condSizeList] at h
            omega
          have hcs : condSizeList cs ≤ f := by
            simp [condSizeList] at h
            omega
          simp [serializeCondList, parseCondList, List.append_assoc,
            ih.1 c (serializeCondList cs ++ rest) hc,
            ih.2 cs rest hcs]
  intro c fuel rest h
  exact (main fuel).1 c rest h

theorem condSize_le_length :
    ∀ c : Condition, condSize c ≤ (serializeCond c).length := by
  have main :
      ∀ c : Condition, condSize c + 1 ≤ (serializeCond c).length ∨
        condSize c ≤ (serializeCond c).length := by
    intro c
    left
    induction c using Condition.rec
      (motive_2 := fun cs =>
        condSizeList cs ≤ (serializeCondList cs).length) with
    | key i => simp [condSize, serializeCond]
    | after h => simp [condSize, serializeCond]
    | older n => simp [condSize, serializeCond]
    | hashCond d => simp [condSize, serializeCond]
    | thresh k cs ih =>
      simp [condSize, serializeCond]
      omega
    | nil => simp [condSizeList, serializeCondList]
    | cons c cs ihc ihcs =>
      simp [condSizeList, serializeCondList]
      omega
  intro c
  rcases main c with h | h
  · omega
  · exact h

theorem deserialize_serializeCond (c : Condition) :
    deserialize (serializeCond c) = some c := by
  have h : condSize c ≤ (serializeCond c).length + 1 := by
    have := condSize_le_length c
    omega
  have := parseCond_serializeCond c ((serializeCond c).length + 1) [] h
  simp only [List.append_nil] at this
  simp [deserialize, this]

/-! ## Policy Compiler

Modelled from the spec: a policy expression in the abstract grammar
`pk(ID) | after(N) | older(N) | sha256(H) | and(P,...) | or(P,...) |
thresh(K,P,...)`, with `or`/`and` desugaring to
`thresh(1,...)`/`thresh(n,...)`. -/

inductive Policy : Type where
  | pk (id : Nat)
  | afterP (n : Nat)
  | olderP (n : Nat)
  | sha256P (d : Nat)
  | conj (ps : List Policy)
  | disj (ps : List Policy)
  | threshP (k : Nat) (ps : List Policy)

mutual

/-- Modelled from the spec: lower a policy expression into a condition
tree, desugaring `or`/`and` to `thresh(1,...)`/`thresh(n,...)`; all
`Threshold` nodes go through the validating constructor `mkThresh`. -/
def compile : Policy → Except PolicyError Condition
  | .pk id => .ok (.key id)
  | .afterP n => .ok (.after n)
  | .olderP n => .ok (.older n)
  | .sha256P d => .ok (.hashCond d)
  | .conj ps => do mkThresh ps.length (← compileList ps)
  | .disj ps => do mkThresh 1 (← compileList ps)
  | .threshP k ps => do mkThresh k (← compileList ps)

/-- Compile every policy in a list, in order. -/
def compileList : List Policy → Except PolicyError (List Condition)
  | [] => .ok []
  | p :: ps => do pure ((← compile p) :: (← compileList ps))

end

/-! ### Policy text parsing

Modelled from the spec: the compiler's input is a UTF-8 policy
expression string; malformed grammar fails with `ParseError`. -/

/-- Decimal digit test. -/
def isDigitCh (c : Char) : Bool := '0' ≤ c && c ≤ '9'

/-- Hexadecimal digit test (identities and digests appear in hex). -/
def isHexCh (c : Char) : Bool :=
  isDigitCh c || ('a' ≤ c && c ≤ 'f') || ('A' ≤ c && c ≤ 'F')

/-- Characters that may appear in an atom keyword (`pk`, `after`,
`older`, `sha256`, `and`, `or`, `thresh`). -/
def isKeyCh (c : Char) : Bool := ('a' ≤ c && c ≤ 'z') || isDigitCh c

/-- Value of a decimal digit. -/
def digitVal (c : Char) : Nat := c.toNat - 48

/-- Value of a hexadecimal digit. -/
def hexDigitVal (c : Char) : Nat :=
  if isDigitCh c then c.toNat - 48
  else if 'a' ≤ c && c ≤ 'f' then c.toNat - 87
  else c.toNat - 55

/-- Read a nonempty run of decimal digits as a number. -/
def readNat (cs : List Char) : Option (Nat × List Char) :=
  let ds := cs.takeWhile isDigitCh
  if ds.isEmpty then none
  else some (ds.foldl (fun a c => 10 * a + digitVal c) 0, cs.dropWhile isDigitCh)

/-- Read a nonempty run of hexadecimal digits as a number. -/
def readHex (cs : List Char) : Option (Nat × List Char) :=
  let ds := cs.takeWhile isHexCh
  if ds.isEmpty then none
  else some (ds.foldl (fun a c => 16 * a + hexDigitVal c) 0,
    cs.dropWhile isHexCh)

mutual

/-- Modelled from the spec: recursive-descent parse of one policy
expression from the front of the text.  `fuel` bounds nesting depth;
`parsePolicyText` supplies enough for any input. -/
def parsePolicyE : Nat → List Char → Option (Policy × List Char)
  | 0, _ => none
  | fuel + 1, cs =>
    let kw := cs.takeWhile isKeyCh
    match cs.dropWhile isKeyCh with
    | '(' :: r =>
      if kw = "pk".data then
        match readHex r with
        | some (id, ')' :: r2) => some (.pk id, r2)
        | _ => none
      else if kw = "after".data then
        match readNat r with
        | some (n, ')' :: r2) => some (.afterP n, r2)
        | _ => none
      else if kw = "older".data then
        match readNat r with
        | some (n, ')' :: r2) => some (.olderP n, r2)
        | _ => none
      else if kw = "sha256".data then
        match readHex r with
        | some (d, ')' :: r2) => some (.sha256P d, r2)
        | _ => none
      else if kw = "and".data then
        match parsePolicyArgs fuel r with
        | some (ps, ')' :: r2) => some (.conj ps, r2)
        | _ => none
      else if kw = "or".data then
        match parsePolicyArgs fuel r with
        | some (ps, ')' :: r2) => some (.disj ps, r2)
        | _ => none
      else if kw = "thresh".data then
        match readNat r with
        | some (k, ',' :: r2) =>
          match parsePolicyArgs fuel r2 with
          | some (ps, ')' :: r3) => some (.threshP k ps, r3)
          | _ => none
        | _ => none
      else none
    | _ => none

/-- Parse a comma-separated nonempty sequence of policy expressions. -/
def parsePolicyArgs : Nat → List Char → Option (List Policy × List Char)
  | 0, _ => none
  | fuel + 1, cs =>
    match parsePolicyE fuel cs with
    | some (p, ',' :: r) =>
      match parsePolicyArgs fuel r with
      | some (ps, r2) => some (p :: ps, r2)
      | none => none
    | some (p, r) => some ([p], r)
    | none => none

end

/-- Modelled from the spec: parse a whole policy text; the text must be
consumed exactly, else `ParseError`. -/
def parsePolicyText (cs : List Char) : Except PolicyError Policy :=
  match parsePolicyE (cs.length + 1) cs with
  | some (p, []) => .ok p
  | _ => .error .parseError

/-- Parse and compile a policy text into its condition tree. -/
def compileFromText (cs : List Char) : Except PolicyError Condition := do
  compile (← parsePolicyText cs)

/-- Parse and compile a policy text into its locking-script bytes. -/
def scriptFromText (cs : List Char) : Except PolicyError (List Nat) := do
  pure (serializeCond (← compileFromText cs))

/-! ### The example's vault policy

The example's policy string is
`or(pk(emergency_pk),and(pk(unvault_pk),after(1311208)))` with the two
compressed public keys below (read as hexadecimal values). -/

/-- The example's `emergency_pk`. -/
def emergencyPk : Nat :=
  0x033b4ac89f5d83de29af72d8b99963c4dbd416fa7c8a8aee6b4761f8f85e588f80

/-- The example's `unvault_pk`. -/
def unvaultPk : Nat :=
  0x02e7c62fd3a65abdc7ff233fba5637f89c9eaba7fe6baaf15ca99d81e0f5145bf8

/-- The example's `after` block height. -/
def vaultAfter : Nat := 1311208

/-- The example's vault policy expression. -/
def vaultPolicy : Policy :=
  .disj [.pk emergencyPk, .conj [.pk unvaultPk, .afterP vaultAfter]]

/-- The condition tree the vault policy compiles to. -/
def vaultTree : Condition :=
  .thresh 1 [.key emergencyPk, .thresh 2 [.key unvaultPk, .after vaultAfter]]

theorem compile_vaultPolicy : compile vaultPolicy = .ok vaultTree := rfl

/-! ## Asset Set

Modelled from the spec: an Asset is one of `HasKey(identity)`,
`TimeAfter(height)`, `TimeOlder(blocks)`, `HasPreimage(digest)`; the
Asset Set is an unordered collection, consulted only through membership
queries, so duplicates and insertion order cannot influence planning. -/

inductive Asset : Type where
  | hasKey (id : Nat)
  | timeAfter (height : Nat)
  | timeOlder (blocks : Nat)
  | hasPreimage (digest : Nat)
deriving DecidableEq

/-- An Asset Set, backed by a list but consulted only through
membership. -/
abbrev AssetSet : Type := List Asset

/-- `Assets::new()`: the empty Asset Set. -/
def assetsNew : AssetSet := []

/-- `Assets::add` / `Assets::after` / `Assets::older`: insert one asset
into the set. -/
def addAsset (A : AssetSet) (x : Asset) : AssetSet := x :: A

/-- Membership in an Asset Set. -/
def memAsset (x : Asset) (A : AssetSet) : Bool :=
  List.any A fun a => a = x

/-- The set holds the key for `id`. -/
def holdsKey (A : AssetSet) (id : Nat) : Bool :=
  List.any A fun a =>
    match a with
    | .hasKey i => i = id
    | _ => false

/-- The set asserts an absolute locktime of at least `h` (spec: `A`
contains `TimeAfter(h')` with `h' >= h`). -/
def holdsAfter (A : AssetSet) (h : Nat) : Bool :=
  List.any A fun a =>
    match a with
    | .timeAfter h2 => h ≤ h2
    | _ => false

/-- The set asserts a relative locktime of at least `n` blocks. -/
def holdsOlder (A : AssetSet) (n : Nat) : Bool :=
  List.any A fun a =>
    match a with
    | .timeOlder n2 => n ≤ n2
    | _ => false

/-- The set holds the preimage of `d`. -/
def holdsPreimage (A : AssetSet) (d : Nat) : Bool :=
  List.any A fun a =>
    match a with
    | .hasPreimage d2 => d2 = d
    | _ => false

/-! ## Planner

Modelled from the spec (§4.3): recursive evaluation over the tree,
returning the set of candidate satisfying assignments with their
aggregate cost and locktime/sequence requirement, pruning inconsistent
combinations (two `After` leaves with different heights) before
combining at each `Threshold`; the final choice is the lowest-cost
candidate, leftmost on exact ties. -/

/-- One step of a Plan: produce a signature or reveal a preimage. -/
inductive PlanStep : Type where
  | signKey (id : Nat)
  | revealPreimage (digest : Nat)
deriving DecidableEq

/-- Witness cost of one step: 1 per signature, preimage size (32) per
preimage reveal. -/
def stepCost : PlanStep → Nat
  | .signKey _ => 1
  | .revealPreimage _ => 32

/-- Aggregate witness cost of a step sequence. -/
def stepsCost (l : List PlanStep) : Nat := (l.map stepCost).sum

/-- A candidate satisfying assignment: its steps, aggregate cost, and
the locktime/sequence value it commits to (if any). -/
structure Candidate : Type where
  steps : List PlanStep
  cost : Nat
  lock : Option Nat
  seq : Option Nat
deriving DecidableEq

/-- The empty assignment (used when a `Threshold` needs zero more
children). -/
def emptyCand : Candidate := ⟨[], 0, none, none⟩

/-- Merge two locktime (or sequence) commitments: they must agree,
since a transaction has exactly one locktime field; disagreement is a
contradiction and the combination is pruned. -/
def mergeLock : Option Nat → Option Nat → Option (Option Nat)
  | none, b => some b
  | some a, none => some (some a)
  | some a, some b => if a = b then some (some a) else none

/-- Merge two candidate assignments, pruning locktime/sequence
contradictions. -/
def mergeCand (c d : Candidate) : Option Candidate :=
  match mergeLock c.lock d.lock, mergeLock c.seq d.seq with
  | some l, some s => some ⟨c.steps ++ d.steps, c.cost + d.cost, l, s⟩
  | _, _ => none

/-- All consistent ways to satisfy exactly `k` of the children, given
each child's candidate list, in declaration order. -/
def chooseK : Nat → List (List Candidate) → List Candidate
  | 0, _ => [emptyCand]
  | _ + 1, [] => []
  | k + 1, cands :: rest =>
    (cands.map fun c => (chooseK k rest).filterMap (mergeCand c)).flatten ++
      chooseK (k + 1) rest

mutual

/-- Modelled from the spec: the candidate satisfying assignments of a
condition tree under an Asset Set, consistent combinations only. -/
def candidates (A : AssetSet) : Condition → List Candidate
  | .key id =>
    if holdsKey A id then [⟨[.signKey id], 1, none, none⟩] else []
  | .after h =>
    if holdsAfter A h then [⟨[], 0, some h, none⟩] else []
  | .older n =>
    if holdsOlder A n then [⟨[], 0, none, some n⟩] else []
  | .hashCond d =>
    if holdsPreimage A d then [⟨[.revealPreimage d], 32, none, none⟩] else []
  | .thresh k cs => chooseK k (candidatesList A cs)

/-- The children's candidate lists, in declaration order. -/
def candidatesList (A : AssetSet) : List Condition → List (List Candidate)
  | [] => []
  | c :: cs => candidates A c :: candidatesList A cs

end

mutual

/-- Modelled from the spec: individual satisfiability, ignoring the
global locktime side constraint (a `Threshold(k,children)` is
satisfiable iff at least `k` children are individually satisfiable). -/
def satisfiable (A : AssetSet) : Condition → Bool
  | .key id => holdsKey A id
  | .after h => holdsAfter A h
  | .older n => holdsOlder A n
  | .hashCond d => holdsPreimage A d
  | .thresh k cs => decide (k ≤ countSat A cs)

/-- How many of the children are individually satisfiable. -/
def countSat (A : AssetSet) : List Condition → Nat
  | [] => 0
  | c :: cs => (if satisfiable A c then 1 else 0) + countSat A cs

end

/-- Lowest-cost candidate, leftmost on exact ties (the deterministic
tie-break of §4.3). -/
def selectBest : List Candidate → Option Candidate
  | [] => none
  | c :: cs => some (cs.foldl (fun b d => if d.cost < b.cost then d else b) c)

/-- A Plan: the ordered steps plus the aggregate `required_locktime` and
`required_sequence` (ZERO when unused). -/
structure Plan : Type where
  steps : List PlanStep
  required_locktime : Nat
  required_sequence : Nat
deriving DecidableEq

/-- Project a chosen candidate onto the caller-visible Plan. -/
def toPlan (c : Candidate) : Plan :=
  ⟨c.steps, c.lock.getD 0, c.seq.getD 0⟩

/-- Planning-time failures. -/
inductive PlanError : Type where
  | unsatisfiable
  | conflictingTimelock
deriving DecidableEq

/-- Modelled from the spec: `Descriptor::plan` — return the lowest-cost
consistent Plan; fail `ConflictingTimelock` when the assets could
satisfy the tree only via incompatible locktime/sequence requirements,
else `Unsatisfiable`. -/
def plan (T : Condition) (A : AssetSet) : Except PlanError Plan :=
  match selectBest (candidates A T) with
  | some c => .ok (toPlan c)
  | none =>
    if satisfiable A T then .error .conflictingTimelock
    else .error .unsatisfiable

/-! ### Planner lemmas -/

theorem foldlBest_mem (c : Candidate) (cs : List Candidate) :
    cs.foldl (fun b d => if d.cost < b.cost then d else b) c ∈ c :: cs := by
  induction cs generalizing c with
  | nil => simp
  | cons d cs ih =>
    simp only [List.foldl_cons]
    by_cases hd : d.cost < c.cost
    · rw [if_pos hd]
      exact List.mem_cons_of_mem _ (ih d)
    · rw [if_neg hd]
      have h := ih c
      rw [List.mem_cons] at h ⊢
      rcases h with h | h
      · left
        exact h
      · right
        exact List.mem_cons_of_mem _ h

theorem foldlBest_min (c : Candidate) (cs : List Candidate) :
    (cs.foldl (fun b d => if d.cost < b.cost then d else b) c).cost ≤ c.cost ∧
    ∀ d ∈ cs,
      (cs.foldl (fun b d => if d.cost < b.cost then d else b) c).cost ≤ d.cost := by
  induction cs generalizing c with
  | nil => simp
  | cons d cs ih =>
    simp only [List.foldl_cons]
    by_cases hd : d.cost < c.cost
    · rw [if_pos hd]
      refine ⟨le_trans (ih d).1 (by omega), ?_⟩
      intro e he
      rw [List.mem_cons] at he
      rcases he with rfl | he
      · exact (ih _).1
      · exact (ih _).2 e he
    · rw [if_neg hd]
      refine ⟨(ih c).1, ?_⟩
      intro e he
      rw [List.mem_cons] at he
      rcases he with rfl | he
      · exact le_trans (ih c).1 (by omega)
      · exact (ih c).2 e he

theorem selectBest_mem {l : List Candidate} {c : Candidate}
    (h : selectBest l = some c) : c ∈ l := by
  cases l with
  | nil => simp [selectBest] at h
  | cons a as =>
    simp only [selectBest, Option.some_inj] at h
    rw [← h]
    exact foldlBest_mem a as

theorem selectBest_min {l : List Candidate} {c : Candidate}
    (h : selectBest l = some c) : ∀ d ∈ l, c.cost ≤ d.cost := by
  cases l with
  | nil => simp [selectBest] at h
  | cons a as =>
    simp only [selectBest, Option.some_inj] at h
    intro d hd
    rw [List.mem_cons] at hd
    rw [← h]
    rcases hd with rfl | hd
    · exact (foldlBest_min d as).1
    · exact (foldlBest_min a as).2 d hd

theorem selectBest_eq_none {l : List Candidate} :
    selectBest l = none ↔ l = [] := by
  cases l <;> simp [selectBest]

/-- How many of the children contributed at least one candidate. -/
def countNonempty : List (List Candidate) → Nat
  | [] => 0
  | l :: ls => (if l = [] then 0 else 1) + countNonempty ls

theorem mem_chooseK_le (k : Nat) (ls : List (List Candidate)) (c : Candidate)
    (h : c ∈ chooseK k ls) : k ≤ countNonempty ls := by
  induction ls generalizing k c with
  | nil =>
    cases k with
    | zero => simp [countNonempty]
    | succ k => simp [chooseK] at h
  | cons l ls ih =>
    cases k with
    | zero => simp
    | succ k =>
      simp only [chooseK, List.mem_append] at h
      rcases h with h | h
      · rw [List.mem_flatten] at h
        rcases h with ⟨sub, hsub, hc⟩
        rw [List.mem_map] at hsub
        rcases hsub with ⟨c0, hc0, rfl⟩
        rw [List.mem_filterMap] at hc
        rcases hc with ⟨m, hm, _⟩
        have hk := ih k m hm
        have hne : l ≠ [] := by
          intro he
          rw [he] at hc0
          simp at hc0
        simp only [countNonempty, if_neg hne]
        omega
      · have hk := ih (k + 1) c h
        simp only [countNonempty]
        split <;> omega

theorem mem_candidates_satisfiable (A : AssetSet) :
    ∀ T : Condition, ∀ c ∈ candidates A T, satisfiable A T = true := by
  intro T
  induction T using Condition.rec
    (motive_2 := fun cs =>
      countNonempty (candidatesList A cs) ≤ countSat A cs) with
  | key id =>
    intro c hc
    by_cases h : holdsKey A id = true
    · simp [satisfiable, h]
    · simp [candidates, h] at hc
  | after hh =>
    intro c hc
    by_cases h : holdsAfter A hh = true
    · simp [satisfiable, h]
    · simp [candidates, h] at hc
  | older n =>
    intro c hc
    by_cases h : holdsOlder A n = true
    · simp [satisfiable, h]
    · simp [candidates, h] at hc
  | hashCond d =>
    intro c hc
    by_cases h : holdsPreimage A d = true
    · simp [satisfiable, h]
    · simp [candidates, h] at hc
  | thresh k cs ih =>
    intro c hc
    simp only [candidates] at hc
    have h1 := mem_chooseK_le k _ c hc
    have h2 := le_trans h1 ih
    simpa [satisfiable] using h2
  | nil => simp [candidatesList, countNonempty, countSat]
  | cons c cs ihc ihcs =>
    simp only [candidatesList, countNonempty, countSat]
    by_cases h : candidates A c = []
    · simp only [if_pos h]
      split <;> omega
    · obtain ⟨c0, hc0⟩ := List.exists_mem_of_ne_nil _ h
      have hs := ihc c0 hc0
      simp only [if_neg h, hs, if_pos]
      omega

theorem mergeCand_eq {a b c : Candidate} (h : mergeCand a b = some c) :
    c.steps = a.steps ++ b.steps ∧ c.cost = a.cost + b.cost := by
  unfold mergeCand at h
  split at h
  · rw [Option.some_inj] at h
    rw [← h]
    exact ⟨rfl, rfl⟩
  · exact absurd h (by simp)

theorem stepsCost_append (x y : List PlanStep) :
    stepsCost (x ++ y) = stepsCost x + stepsCost y := by
  simp [stepsCost]

theorem mem_chooseK_cost (k : Nat) (ls : List (List Candidate)) (c : Candidate)
    (h : c ∈ chooseK k ls)
    (hls : ∀ l ∈ ls, ∀ d ∈ l, d.cost = stepsCost d.steps) :
    c.cost = stepsCost c.steps := by
  induction ls generalizing k c with
  | nil =>
    cases k with
    | zero =>
      simp only [chooseK, List.mem_singleton] at h
      rw [h]
      rfl
    | succ k => simp [chooseK] at h
  | cons l ls ih =>
    cases k with
    | zero =>
      simp only [chooseK, List.mem_singleton] at h
      rw [h]
      rfl
    | succ k =>
      simp only [chooseK, List.mem_append] at h
      rcases h with h | h
      · rw [List.mem_flatten] at h
        rcases h with ⟨sub, hsub, hc⟩
        rw [List.mem_map] at hsub
        rcases hsub with ⟨c0, hc0, rfl⟩
        rw [List.mem_filterMap] at hc
        rcases hc with ⟨m, hm, hmerge⟩
        have h1 := hls l (List.mem_cons_self _ _) c0 hc0
        have h2 := ih k m hm fun l2 hl2 => hls l2 (List.mem_cons_of_mem _ hl2)
        obtain ⟨hs, hcst⟩ := mergeCand_eq hmerge
        rw [hcst, hs, h1, h2, stepsCost_append]
      · exact ih (k + 1) c h fun l2 hl2 => hls l2 (List.mem_cons_of_mem _ hl2)

theorem mem_candidates_cost (A : AssetSet) :
    ∀ T : Condition, ∀ c ∈ candidates A T, c.cost = stepsCost c.steps := by
  intro T
  induction T using Condition.rec
    (motive_2 := fun cs =>
      ∀ l ∈ candidatesList A cs, ∀ d ∈ l, d.cost = stepsCost d.steps) with
  | key id =>
    intro c hc
    by_cases h : holdsKey A id = true
    · simp only [candidates, if_pos h, List.mem_singleton] at hc
      rw [hc]
      rfl
    · simp [candidates, h] at hc
  | after hh =>
    intro c hc
    by_cases h : holdsAfter A hh = true
    · simp only [candidates, if_pos h, List.mem_singleton] at hc
      rw [hc]
      rfl
    · simp [candidates, h] at hc
  | older n =>
    intro c hc
    by_cases h : holdsOlder A n = true
    · simp only [candidates, if_pos h, List.mem_singleton] at hc
      rw [hc]
      rfl
    · simp [candidates, h] at hc
  | hashCond d =>
    intro c hc
    by_cases h : holdsPreimage A d = true
    · simp only [candidates, if_pos h, List.mem_singleton] at hc
      rw [hc]
      rfl
    · simp [candidates, h] at hc
  | thresh k cs ih =>
    intro c hc
    simp only [candidates] at hc
    exact mem_chooseK_cost k _ c hc ih
  | nil =>
    rename_i l hl d hd
    simp [candidatesList] at hl
  | cons c cs ihc ihcs =>
    rename_i l hl d hd
    simp only [candidatesList, List.mem_cons] at hl
    rcases hl with rfl | hl
    · exact ihc d hd
    · exact ihcs l hl d hd

theorem keyCand_mem_chooseK (A : AssetSet) (id : Nat) :
    ∀ cs : List Condition, Condition.key id ∈ cs → holdsKey A id = true →
      (⟨[.signKey id], 1, none, none⟩ : Candidate) ∈
        chooseK 1 (candidatesList A cs) := by
  intro cs
  induction cs with
  | nil => intro h; simp at h
  | cons c cs ih =>
    intro hmem hk
    rw [List.mem_cons] at hmem
    rcases hmem with rfl | hmem
    · apply List.mem_append_left
      rw [List.mem_flatten]
      refine ⟨List.filterMap (mergeCand ⟨[.signKey id], 1, none, none⟩)
        (chooseK 0 (candidatesList A cs)), ?_, ?_⟩
      · rw [List.mem_map]
        exact ⟨⟨[.signKey id], 1, none, none⟩, by simp [candidates, hk], rfl⟩
      · rw [List.mem_filterMap]
        exact ⟨emptyCand, by simp [chooseK], rfl⟩
    · exact List.mem_append_right _ (ih hmem hk)

theorem plan_thresh1_key (cs : List Condition) (id : Nat) (A : AssetSet)
    (hmem : Condition.key id ∈ cs) (hk : holdsKey A id = true) :
    ∃ p, plan (.thresh 1 cs) A = .ok p ∧ stepsCost p.steps ≤ 1 := by
  have hmem2 := keyCand_mem_chooseK A id cs hmem hk
  have hne : candidates A (.thresh 1 cs) ≠ [] := by
    intro he
    rw [show candidates A (.thresh 1 cs) = chooseK 1 (candidatesList A cs)
      from rfl] at he
    rw [he] at hmem2
    simp at hmem2
  obtain ⟨c, hc⟩ : ∃ c, selectBest (candidates A (.thresh 1 cs)) = some c := by
    cases hsel : selectBest (candidates A (.thresh 1 cs)) with
    | none => exact absurd (selectBest_eq_none.mp hsel) hne
    | some c => exact ⟨c, rfl⟩
  refine ⟨toPlan c, ?_, ?_⟩
  · simp [plan, hc]
  · have hmin := selectBest_min hc _ hmem2
    have hcost := mem_candidates_cost A _ c (selectBest_mem hc)
    have h2 : stepsCost (toPlan c).steps = c.cost := hcost.symm
    rw [h2]
    exact hmin

/-! ### Asset-extensionality of planning

The planner consults the Asset Set only through membership queries, so
two sets with the same members (in particular, a set with a duplicated
element, or a reordered set) plan identically. -/

theorem any_congr {A1 A2 : AssetSet} (H : ∀ a : Asset, a ∈ A1 ↔ a ∈ A2)
    (f : Asset → Bool) : A1.any f = A2.any f := by
  by_cases h : A1.any f = true
  · rw [h]
    symm
    rw [List.any_eq_true] at h ⊢
    obtain ⟨a, ha, hf⟩ := h
    exact ⟨a, (H a).mp ha, hf⟩
  · have h2 : ¬A2.any f = true := by
      intro h2
      apply h
      rw [List.any_eq_true] at h2 ⊢
      obtain ⟨a, ha, hf⟩ := h2
      exact ⟨a, (H a).mpr ha, hf⟩
    rw [Bool.not_eq_true] at h h2
    rw [h, h2]

theorem holdsKey_congr {A1 A2 : AssetSet}
    (H : ∀ a : Asset, a ∈ A1 ↔ a ∈ A2) (id : Nat) :
    holdsKey A1 id = holdsKey A2 id := any_congr H _

theorem holdsAfter_congr {A1 A2 : AssetSet}
    (H : ∀ a : Asset, a ∈ A1 ↔ a ∈ A2) (h : Nat) :
    holdsAfter A1 h = holdsAfter A2 h := any_congr H _

theorem holdsOlder_congr {A1 A2 : AssetSet}
    (H : ∀ a : Asset, a ∈ A1 ↔ a ∈ A2) (n : Nat) :
    holdsOlder A1 n = holdsOlder A2 n := any_congr H _

theorem holdsPreimage_congr {A1 A2 : AssetSet}
    (H : ∀ a : Asset, a ∈ A1 ↔ a ∈ A2) (d : Nat) :
    holdsPreimage A1 d = holdsPreimage A2 d := any_congr H _

theorem candidates_congr {A1 A2 : AssetSet}
    (H : ∀ a : Asset, a ∈ A1 ↔ a ∈ A2) :
    ∀ T : Condition, candidates A1 T = candidates A2 T := by
  intro T
  induction T using Condition.rec
    (motive_2 := fun cs => candidatesList A1 cs = candidatesList A2 cs) with
  | key id => simp only [candidates, holdsKey_congr H]
  | after hh => simp only [candidates, holdsAfter_congr H]
  | older n => simp only [candidates, holdsOlder_congr H]
  | hashCond d => simp only [candidates, holdsPreimage_congr H]
  | thresh k cs ih =>
    simp only [candidates]
    rw [ih]
  | nil => rfl
  | cons c cs ihc ihcs => simp only [candidatesList, ihc, ihcs]

theorem satisfiable_congr {A1 A2 : AssetSet}
    (H : ∀ a : Asset, a ∈ A1 ↔ a ∈ A2) :
    ∀ T : Condition, satisfiable A1 T = satisfiable A2 T := by
  intro T
  induction T using Condition.rec
    (motive_2 := fun cs => countSat A1 cs = countSat A2 cs) with
  | key id => simp only [satisfiable, holdsKey_congr H]
  | after hh => simp only [satisfiable, holdsAfter_congr H]
  | older n => simp only [satisfiable, holdsOlder_congr H]
  | hashCond d => simp only [satisfiable, holdsPreimage_congr H]
  | thresh k cs ih =>
    simp only [satisfiable]
    rw [ih]
  | nil => rfl
  | cons c cs ihc ihcs => simp only [countSat, ihc, ihcs]

theorem plan_congr {A1 A2 : AssetSet}
    (H : ∀ a : Asset, a ∈ A1 ↔ a ∈ A2) (T : Condition) :
    plan T A1 = plan T A2 := by
  unfold plan
  rw [candidates_congr H T, satisfiable_congr H T]

/-! ## Finalizer

Modelled from the spec (§4.5): given a signing context populated with
real signatures and the original compiled condition tree, re-derive
whether the tree is actually satisfied by the concrete witness data
present, leaf-by-leaf, verifying each signature cryptographically; emit
the witness items in tree order on success, or `UnsatisfiedCondition`
naming the leftmost undischarged leaf on failure.  Signature
verification and hashing are abstract parameters (`verify`, `hashFn`);
theorems hold for every choice of them. -/

/-- A caller-owned signing context: the raw signature bytes deposited
per identity, the known preimage bytes per digest, the transaction's
locktime and the input's sequence, and the Plan's earlier claim (which
the Finalizer never consults). -/
structure SigningContext : Type where
  sigs : List (Nat × Nat)
  preimages : List (Nat × Nat)
  txLocktime : Nat
  txSequence : Nat
  planned : Option Plan

/-- One item of the emitted witness. -/
inductive WitnessItem : Type where
  | sigItem (id : Nat) (sig : Nat)
  | preimageItem (digest : Nat) (preimage : Nat)
deriving DecidableEq

/-- The first deposited signature bytes for `id` that verify
cryptographically under `verify`. -/
def sigFor (verify : Nat → Nat → Bool) (sigs : List (Nat × Nat))
    (id : Nat) : Option Nat :=
  (sigs.find? fun p => decide (p.1 = id) && verify id p.2).map Prod.snd

/-- The first deposited preimage bytes for `d` whose hash is `d`. -/
def preimageFor (hashFn : Nat → Nat) (preimages : List (Nat × Nat))
    (d : Nat) : Option Nat :=
  (preimages.find? fun p => decide (p.1 = d) && decide (hashFn p.2 = d)).map
    Prod.snd

mutual

/-- Modelled from the spec: leaf-by-leaf re-evaluation of the condition
tree against the actual signature/preimage bytes present and the
transaction's locktime/sequence fields. -/
def evalCond (verify : Nat → Nat → Bool) (hashFn : Nat → Nat)
    (sigs preimages : List (Nat × Nat)) (lt sq : Nat) : Condition → Bool
  | .key id => (sigFor verify sigs id).isSome
  | .after h => decide (h ≤ lt)
  | .older n => decide (n ≤ sq)
  | .hashCond d => (preimageFor hashFn preimages d).isSome
  | .thresh k cs => decide (k ≤ countEval verify hashFn sigs preimages lt sq cs)

/-- How many children are discharged by the witness data present. -/
def countEval (verify : Nat → Nat → Bool) (hashFn : Nat → Nat)
    (sigs preimages : List (Nat × Nat)) (lt sq : Nat) :
    List Condition → Nat
  | [] => 0
  | c :: cs =>
    (if evalCond verify hashFn sigs preimages lt sq c then 1 else 0) +
      countEval verify hashFn sigs preimages lt sq cs

end

mutual

/-- The witness items discharged by the context, emitted in the order
the condition tree's script expects. -/
def witnessStack (verify : Nat → Nat → Bool) (hashFn : Nat → Nat)
    (sigs preimages : List (Nat × Nat)) : Condition → List WitnessItem
  | .key id =>
    match sigFor verify sigs id with
    | some s => [.sigItem id s]
    | none => []
  | .after _ => []
  | .older _ => []
  | .hashCond d =>
    match preimageFor hashFn preimages d with
    | some p => [.preimageItem d p]
    | none => []
  | .thresh _ cs => witnessStackList verify hashFn sigs preimages cs

/-- Witness items of the children, left to right. -/
def witnessStackList (verify : Nat → Nat → Bool) (hashFn : Nat → Nat)
    (sigs preimages : List (Nat × Nat)) : List Condition → List WitnessItem
  | [] => []
  | c :: cs =>
    witnessStack verify hashFn sigs preimages c ++
      witnessStackList verify hashFn sigs preimages cs

end

mutual

/-- The leftmost leaf the witness data fails to discharge (for
`UnsatisfiedCondition` reporting). -/
def firstUnsatLeaf (verify : Nat → Nat → Bool) (hashFn : Nat → Nat)
    (sigs preimages : List (Nat × Nat)) (lt sq : Nat) :
    Condition → Option Condition
  | .key id =>
    if (sigFor verify sigs id).isSome then none else some (.key id)
  | .after h => if h ≤ lt then none else some (.after h)
  | .older n => if n ≤ sq then none else some (.older n)
  | .hashCond d =>
    if (preimageFor hashFn preimages d).isSome then none
    else some (.hashCond d)
  | .thresh _ cs => firstUnsatLeafList verify hashFn sigs preimages lt sq cs

/-- The leftmost undischarged leaf among the children. -/
def firstUnsatLeafList (verify : Nat → Nat → Bool) (hashFn : Nat → Nat)
    (sigs preimages : List (Nat × Nat)) (lt sq : Nat) :
    List Condition → Option Condition
  | [] => none
  | c :: cs =>
    match firstUnsatLeaf verify hashFn sigs preimages lt sq c with
    | some l => some l
    | none => firstUnsatLeafList verify hashFn sigs preimages lt sq cs

end

/-- Finalization-time failure: the leaf that could not be discharged. -/
inductive FinalizeError : Type where
  | unsatisfiedCondition (leaf : Condition)

/-- The signature entries carried by emitted witness items. -/
def sigsOfWitness (w : List WitnessItem) : List (Nat × Nat) :=
  w.filterMap fun i =>
    match i with
    | .sigItem id s => some (id, s)
    | _ => none

/-- The preimage entries carried by emitted witness items. -/
def preimagesOfWitness (w : List WitnessItem) : List (Nat × Nat) :=
  w.filterMap fun i =>
    match i with
    | .preimageItem d p => some (d, p)
    | _ => none

/-- Modelled from the spec: `finalize_mut` — re-derive satisfaction of
the condition tree from the concrete bytes in the signing context
(never from the Plan's claim) and emit the witness, or report the
leftmost undischarged leaf. -/
def finalize (verify : Nat → Nat → Bool) (hashFn : Nat → Nat)
    (T : Condition) (ctx : SigningContext) :
    Except FinalizeError (List WitnessItem) :=
  if evalCond verify hashFn ctx.sigs ctx.preimages ctx.txLocktime
      ctx.txSequence T then
    .ok (witnessStack verify hashFn ctx.sigs ctx.preimages T)
  else
    .error (.unsatisfiedCondition
      ((firstUnsatLeaf verify hashFn ctx.sigs ctx.preimages ctx.txLocktime
        ctx.txSequence T).getD T))

/-! ### Finalizer lemmas -/

theorem sigFor_isSome_iff (verify : Nat → Nat → Bool)
    (sigs : List (Nat × Nat)) (id : Nat) :
    (sigFor verify sigs id).isSome ↔
      ∃ q ∈ sigs, q.1 = id ∧ verify id q.2 = true := by
  unfold sigFor
  rw [Option.isSome_map', List.find?_isSome]
  constructor
  · rintro ⟨q, hq, hp⟩
    simp only [Bool.and_eq_true, decide_eq_true_eq] at hp
    exact ⟨q, hq, hp⟩
  · rintro ⟨q, hq, h1, h2⟩
    exact ⟨q, hq, by simp [h1, h2]⟩

theorem preimageFor_isSome_iff (hashFn : Nat → Nat)
    (preimages : List (Nat × Nat)) (d : Nat) :
    (preimageFor hashFn preimages d).isSome ↔
      ∃ q ∈ preimages, q.1 = d ∧ hashFn q.2 = d := by
  unfold preimageFor
  rw [Option.isSome_map', List.find?_isSome]
  constructor
  · rintro ⟨q, hq, hp⟩
    simp only [Bool.and_eq_true, decide_eq_true_eq] at hp
    exact ⟨q, hq, hp⟩
  · rintro ⟨q, hq, h1, h2⟩
    exact ⟨q, hq, by simp [h1, h2]⟩

theorem sigFor_eq_some {verify : Nat → Nat → Bool}
    {sigs : List (Nat × Nat)} {id s : Nat}
    (h : sigFor verify sigs id = some s) :
    (id, s) ∈ sigs ∧ verify id s = true := by
  unfold sigFor at h
  rw [Option.map_eq_some'] at h
  obtain ⟨q, hq, rfl⟩ := h
  have hp := List.find?_some hq
  have hmem := List.mem_of_find?_eq_some hq
  simp only [Bool.and_eq_true, decide_eq_true_eq] at hp
  obtain ⟨h1, h2⟩ := hp
  constructor
  · rw [← h1]
    exact hmem
  · exact h2

theorem preimageFor_eq_some {hashFn : Nat → Nat}
    {preimages : List (Nat × Nat)} {d p : Nat}
    (h : preimageFor hashFn preimages d = some p) :
    (d, p) ∈ preimages ∧ hashFn p = d := by
  unfold preimageFor at h
  rw [Option.map_eq_some'] at h
  obtain ⟨q, hq, rfl⟩ := h
  have hp := List.find?_some hq
  have hmem := List.mem_of_find?_eq_some hq
  simp only [Bool.and_eq_true, decide_eq_true_eq] at hp
  obtain ⟨h1, h2⟩ := hp
  constructor
  · rw [← h1]
    exact hmem
  · exact h2

/-- Re-evaluating the tree against witness data reconstructed from any
superset of the tree's emitted witness items still succeeds. -/
theorem evalCond_witness_mono (verify : Nat → Nat → Bool)
    (hashFn : Nat → Nat) (sigs preimages : List (Nat × Nat)) (lt sq : Nat)
    (w : List WitnessItem) :
    ∀ T : Condition,
      (∀ i ∈ witnessStack verify hashFn sigs preimages T, i ∈ w) →
      evalCond verify hashFn sigs preimages lt sq T = true →
      evalCond verify hashFn (sigsOfWitness w) (preimagesOfWitness w) lt sq
        T = true := by
  intro T
  induction T using Condition.rec
    (motive_2 := fun cs =>
      (∀ i ∈ witnessStackList verify hashFn sigs preimages cs, i ∈ w) →
      countEval verify hashFn sigs preimages lt sq cs ≤
        countEval verify hashFn (sigsOfWitness w) (preimagesOfWitness w) lt
          sq cs) with
  | key id =>
    intro hsub heval
    simp only [evalCond] at heval ⊢
    rw [Option.isSome_iff_exists] at heval
    obtain ⟨s, hs⟩ := heval
    have hitem : WitnessItem.sigItem id s ∈ w := by
      apply hsub
      simp only [witnessStack, hs]
      exact List.mem_singleton.mpr rfl
    have hv := (sigFor_eq_some hs).2
    rw [sigFor_isSome_iff]
    refine ⟨(id, s), ?_, rfl, hv⟩
    unfold sigsOfWitness
    rw [List.mem_filterMap]
    exact ⟨.sigItem id s, hitem, rfl⟩
  | after hh =>
    intro _ heval
    exact heval
  | older n =>
    intro _ heval
    exact heval
  | hashCond d =>
    intro hsub heval
    simp only [evalCond] at heval ⊢
    rw [Option.isSome_iff_exists] at heval
    obtain ⟨p, hp⟩ := heval
    have hitem : WitnessItem.preimageItem d p ∈ w := by
      apply hsub
      simp only [witnessStack, hp]
      exact List.mem_singleton.mpr rfl
    have hv := (preimageFor_eq_some hp).2
    rw [preimageFor_isSome_iff]
    refine ⟨(d, p), ?_, rfl, hv⟩
    unfold preimagesOfWitness
    rw [List.mem_filterMap]
    exact ⟨.preimageItem d p, hitem, rfl⟩
  | thresh k cs ih =>
    intro hsub heval
    simp only [evalCond, decide_eq_true_eq] at heval ⊢
    exact le_trans heval (ih hsub)
  | nil =>
    simp [countEval]
  | cons c cs ihc ihcs =>
    rename_i hsub
    have hsubc : ∀ i ∈ witnessStack verify hashFn sigs preimages c, i ∈ w := by
      intro i hi
      apply hsub
      simp only [witnessStackList]
      exact List.mem_append_left _ hi
    have hsubcs :
        ∀ i ∈ witnessStackList verify hashFn sigs preimages cs, i ∈ w := by
      intro i hi
      apply hsub
      simp only [witnessStackList]
      exact List.mem_append_right _ hi
    have h2 := ihcs hsubcs
    simp only [countEval]
    by_cases he : evalCond verify hashFn sigs preimages lt sq c = true
    · rw [if_pos he, if_pos (ihc hsubc he)]
      omega
    · rw [if_neg he]
      split <;> omega

/-- Soundness of the Finalizer (C2 core): a success verdict means the
condition tree, re-evaluated independently against the emitted witness
bytes, is satisfied — and the verdict was derived from the concrete
bytes in the context. -/
theorem finalize_sound (verify : Nat → Nat → Bool) (hashFn : Nat → Nat)
    (T : Condition) (ctx : SigningContext) (w : List WitnessItem)
    (h : finalize verify hashFn T ctx = .ok w) :
    evalCond verify hashFn ctx.sigs ctx.preimages ctx.txLocktime
        ctx.txSequence T = true ∧
    w = witnessStack verify hashFn ctx.sigs ctx.preimages T ∧
    evalCond verify hashFn (sigsOfWitness w) (preimagesOfWitness w)
        ctx.txLocktime ctx.txSequence T = true := by
  unfold finalize at h
  split at h
  · rename_i he
    have hw : w = witnessStack verify hashFn ctx.sigs ctx.preimages T := by
      cases h
      rfl
    refine ⟨he, hw, ?_⟩
    apply evalCond_witness_mono verify hashFn ctx.sigs ctx.preimages
      ctx.txLocktime ctx.txSequence w T _ he
    intro i hi
    rw [hw]
    exact hi
  · cases h

/-- The Finalizer never consults the Plan's claim recorded in the
context. -/
theorem finalize_ignores_planned (verify : Nat → Nat → Bool)
    (hashFn : Nat → Nat) (T : Condition) (ctx : SigningContext)
    (p1 p2 : Option Plan) :
    finalize verify hashFn T {ctx with planned := p1} =
      finalize verify hashFn T {ctx with planned := p2} := by
  cases ctx
  rfl

/-! ## The example's own helper functions

Translated from `descriptor_with_plan.rs`: `get_vout`,
`blank_transaction`, `blank_transaction_with` and
`deposit_transaction`.  Scripts and transaction ids are byte sequences
(`List Nat`); amounts are satoshi values. -/

/-- `bitcoin::TxOut`: an amount and a script pubkey. -/
structure TxOutM : Type where
  value : Nat
  script_pubkey : List Nat
deriving DecidableEq

/-- `bitcoin::OutPoint`: a transaction id and an output index. -/
structure OutPointM : Type where
  txid : List Nat
  vout : Nat
deriving DecidableEq

/-- `bitcoin::TxIn` (the fields the example sets). -/
structure TxInM : Type where
  previous_output : OutPointM
  script_sig : List Nat
  sequence : Nat
  witness : List (List Nat)
deriving DecidableEq

/-- `bitcoin::Transaction` (the fields the example sets). -/
structure TransactionM : Type where
  version : Nat
  lock_time : Nat
  input : List TxInM
  output : List TxOutM
deriving DecidableEq

/-- An address, represented by the script pubkey it pays to
(`Address::script_pubkey`). -/
structure AddressM : Type where
  script_pubkey : List Nat
deriving DecidableEq

/-- Byte encoding of one output. -/
def encodeTxOut (o : TxOutM) : List Nat :=
  o.value :: o.script_pubkey.length :: o.script_pubkey

/-- Byte encoding of one input. -/
def encodeTxIn (i : TxInM) : List Nat :=
  i.previous_output.txid ++ i.previous_output.vout :: i.sequence ::
    i.script_sig.length :: i.script_sig

/-- Stand-in for `Transaction::compute_txid`: an injective encoding of
the transaction in place of the double-SHA256 digest (the hash itself
is an external collaborator's concern, out of scope). -/
def computeTxid (tx : TransactionM) : List Nat :=
  tx.version :: tx.lock_time :: tx.input.length :: tx.output.length ::
    ((tx.input.map encodeTxIn).flatten ++ (tx.output.map encodeTxOut).flatten)

/-- The scan inside `get_vout`: walk the outputs with their indices and
return the first whose script pubkey equals `spk`. -/
def getVoutAux (txid : List Nat) (spk : List Nat) :
    Nat → List TxOutM → Option (OutPointM × TxOutM)
  | _, [] => none
  | i, o :: os =>
    if spk = o.script_pubkey then some (⟨txid, i⟩, o)
    else getVoutAux txid spk (i + 1) os

/-- `get_vout`, translated from the source.  The Rust function panics
when no output matches; the panic is modelled as `none`. -/
def getVout (tx : TransactionM) (spk : List Nat) :
    Option (OutPointM × TxOutM) :=
  getVoutAux (computeTxid tx) spk 0 tx.output

/-- `blank_transaction`: version 2, locktime ZERO, no inputs or
outputs. -/
def blankTransaction : TransactionM :=
  { version := 2, lock_time := 0, input := [], output := [] }

/-- `blank_transaction_with`: version 2, the given locktime, no inputs
or outputs. -/
def blankTransactionWith (lock_time : Nat) : TransactionM :=
  { version := 2, lock_time := lock_time, input := [], output := [] }

/-- `Txid::all_zeros()`. -/
def txidAllZeros : List Nat := List.replicate 32 0

/-- `Sequence::default()` (`Sequence::MAX`). -/
def sequenceDefault : Nat := 0xFFFFFFFF

/-- `deposit_transaction`, translated from the source: a version-1
transaction with locktime ZERO, one input spending the all-zeros txid
at vout 0, and one output of 76 000 sats paying the receive address. -/
def depositTransaction (receive_address : AddressM) : TransactionM :=
  { version := 1
    lock_time := 0
    input := [{ previous_output := ⟨txidAllZeros, 0⟩
                script_sig := []
                sequence := sequenceDefault
                witness := [] }]
    output := [{ value := 76000
                 script_pubkey := receive_address.script_pubkey }] }

/-! ### Helper lemmas for `get_vout` -/

theorem getVoutAux_eq_some (txid spk : List Nat) :
    ∀ (os : List TxOutM) (i : Nat) (op : OutPointM) (t : TxOutM),
      getVoutAux txid spk i os = some (op, t) →
      op.txid = txid ∧ t.script_pubkey = spk ∧
      ∃ pre post, os = pre ++ t :: post ∧ op.vout = i + pre.length ∧
        ∀ o ∈ pre, o.script_pubkey ≠ spk := by
  intro os
  induction os with
  | nil =>
    intro i op t h
    simp [getVoutAux] at h
  | cons o os ih =>
    intro i op t h
    by_cases hsp : spk = o.script_pubkey
    · rw [getVoutAux, if_pos hsp] at h
      rw [Option.some_inj] at h
      obtain ⟨h1, h2⟩ := Prod.mk.injEq _ _ _ _ ▸ h
      refine ⟨by rw [← h1], by rw [← h2, ← hsp], [], os, by simp [← h2], ?_, ?_⟩
      · rw [← h1]
        simp
      · simp
    · rw [getVoutAux, if_neg hsp] at h
      obtain ⟨hx, ht, pre, post, hos, hv, hpre⟩ := ih (i + 1) op t h
      refine ⟨hx, ht, o :: pre, post, by simp [hos], by simp [hv]; omega, ?_⟩
      intro o2 ho2
      rw [List.mem_cons] at ho2
      rcases ho2 with rfl | ho2
      · intro he
        exact hsp (he ▸ rfl)
      · exact hpre o2 ho2

theorem getVoutAux_eq_none (txid spk : List Nat) :
    ∀ (os : List TxOutM) (i : Nat),
      (∀ o ∈ os, o.script_pubkey ≠ spk) →
      getVoutAux txid spk i os = none := by
  intro os
  induction os with
  | nil =>
    intro i _
    rfl
  | cons o os ih =>
    intro i hno
    have h1 : spk ≠ o.script_pubkey :=
      fun he => hno o (List.mem_cons_self _ _) he.symm
    rw [getVoutAux, if_neg h1]
    exact ih (i + 1) fun o2 ho2 => hno o2 (List.mem_cons_of_mem _ ho2)

/-! ### Compiler validation lemmas -/

theorem mkThresh_ok {k : Nat} {cs : List Condition} {c : Condition}
    (h : mkThresh k cs = .ok c) :
    c = .thresh k cs ∧ 0 < k ∧ k ≤ cs.length := by
  unfold mkThresh at h
  split at h
  · rename_i hc
    rw [Except.ok.injEq] at h
    exact ⟨h.symm, hc⟩
  · simp at h

theorem mkThresh_error_iff (k : Nat) (cs : List Condition) :
    mkThresh k cs = .error .malformedCondition ↔
      ¬(0 < k ∧ k ≤ cs.length) := by
  unfold mkThresh
  split <;> rename_i hc <;> simp [hc]

theorem exceptBind_ok {α β : Type} {x : Except PolicyError α}
    {f : α → Except PolicyError β} {c : β} (h : x >>= f = .ok c) :
    ∃ a, x = .ok a ∧ f a = .ok c := by
  cases x with
  | error e => simp [Bind.bind, Except.bind] at h
  | ok a => exact ⟨a, rfl, by simpa [Bind.bind, Except.bind] using h⟩

theorem compile_wellFormed :
    ∀ p : Policy, ∀ c : Condition, compile p = .ok c → wellFormed c = true := by
  intro p
  induction p using Policy.rec
    (motive_2 := fun ps =>
      ∀ cs, compileList ps = .ok cs → wellFormedList cs = true) with
  | pk id =>
    intro c h
    rw [compile, Except.ok.injEq] at h
    rw [← h]
    rfl
  | afterP n =>
    intro c h
    rw [compile, Except.ok.injEq] at h
    rw [← h]
    rfl
  | olderP n =>
    intro c h
    rw [compile, Except.ok.injEq] at h
    rw [← h]
    rfl
  | sha256P d =>
    intro c h
    rw [compile, Except.ok.injEq] at h
    rw [← h]
    rfl
  | conj ps ih =>
    intro c h
    have h2 : compileList ps >>= (fun cs => mkThresh ps.length cs) = .ok c := h
    obtain ⟨cs, hcl, hmk⟩ := exceptBind_ok h2
    obtain ⟨rfl, hb⟩ := mkThresh_ok hmk
    simp only [wellFormed, Bool.and_eq_true, decide_eq_true_eq]
    exact ⟨hb, ih cs hcl⟩
  | disj ps ih =>
    intro c h
    have h2 : compileList ps >>= (fun cs => mkThresh 1 cs) = .ok c := h
    obtain ⟨cs, hcl, hmk⟩ := exceptBind_ok h2
    obtain ⟨rfl, hb⟩ := mkThresh_ok hmk
    simp only [wellFormed, Bool.and_eq_true, decide_eq_true_eq]
    exact ⟨hb, ih cs hcl⟩
  | threshP k ps ih =>
    intro c h
    have h2 : compileList ps >>= (fun cs => mkThresh k cs) = .ok c := h
    obtain ⟨cs, hcl, hmk⟩ := exceptBind_ok h2
    obtain ⟨rfl, hb⟩ := mkThresh_ok hmk
    simp only [wellFormed, Bool.and_eq_true, decide_eq_true_eq]
    exact ⟨hb, ih cs hcl⟩
  | nil =>
    rename_i cs h
    rw [compileList, Except.ok.injEq] at h
    rw [← h]
    rfl
  | cons p ps ihp ihps =>
    rename_i cs h
    have h2 : compile p >>=
        (fun c => compileList ps >>= fun cs2 => pure (c :: cs2)) = .ok cs := h
    obtain ⟨c, hc, h3⟩ := exceptBind_ok h2
    obtain ⟨cs2, hcs2, h4⟩ := exceptBind_ok h3
    have h5 : cs = c :: cs2 := by
      rw [show (pure (c :: cs2) : Except PolicyError (List Condition)) =
        .ok (c :: cs2) from rfl, Except.ok.injEq] at h4
      exact h4.symm
    rw [h5]
    simp only [wellFormedList, Bool.and_eq_true]
    exact ⟨ihp c hc, ihps cs2 hcs2⟩

/-- The example's policy string, as formatted by the Rust source. -/
def vaultPolicyText : List Char :=
  ("or(pk(033b4ac89f5d83de29af72d8b99963c4dbd416fa7c8a8aee6b4761f8f85e588f80)," ++
    "and(pk(02e7c62fd3a65abdc7ff233fba5637f89c9eaba7fe6baaf15ca99d81e0f5145bf8)," ++
    "after(1311208)))").data

set_option maxRecDepth 10000

theorem parsePolicyText_vault : parsePolicyText vaultPolicyText = .ok vaultPolicy := by
  rfl

theorem compileFromText_vault : compileFromText vaultPolicyText = .ok vaultTree := by
  rfl

/-- A `Threshold(1, [Key id])` root with the key held plans to exactly
the one-step Plan for that leaf. -/
theorem plan_thresh1_single_key (id : Nat) (A : AssetSet)
    (hk : holdsKey A id = true) :
    plan (.thresh 1 [.key id]) A = .ok ⟨[.signKey id], 0, 0⟩ := by
  have h1 : candidates A (.thresh 1 [.key id]) =
      [⟨[.signKey id], 1, none, none⟩] := by
    show chooseK 1 (candidatesList A [.key id]) = _
    simp only [candidatesList, candidates, if_pos hk]
    rfl
  unfold plan
  rw [h1]
  rfl

/-! ## The claims -/

/-- **C1**: for the vault policy
`or(pk(emergency), and(pk(unvault), after(1311208)))`, planning with
`{HasKey(emergency)}` returns a Plan whose only step uses the emergency
key leaf with `required_locktime` ZERO, and planning with
`{HasKey(unvault), TimeAfter(1311208)}` returns a Plan using the
unvault branch with `required_locktime = 1311208`; and whenever an
Asset Set trivially satisfies a `Key` leaf under a `Threshold(1,...)`
root, the Planner returns a Plan no more expensive than that one-step
plan — exactly that one-step Plan when the leaf is the sole
requirement. -/
theorem claim1_vault_planning :
    plan vaultTree (addAsset assetsNew (.hasKey emergencyPk)) =
      .ok ⟨[.signKey emergencyPk], 0, 0⟩ ∧
    plan vaultTree (addAsset (addAsset assetsNew (.hasKey unvaultPk))
        (.timeAfter vaultAfter)) =
      .ok ⟨[.signKey unvaultPk], vaultAfter, 0⟩ ∧
    (∀ (cs : List Condition) (id : Nat) (A : AssetSet),
      Condition.key id ∈ cs → holdsKey A id = true →
      ∃ p, plan (.thresh 1 cs) A = .ok p ∧ stepsCost p.steps ≤ 1) ∧
    (∀ (id : Nat) (A : AssetSet), holdsKey A id = true →
      plan (.thresh 1 [.key id]) A = .ok ⟨[.signKey id], 0, 0⟩) := by
  refine ⟨rfl, rfl, ?_, ?_⟩
  · intro cs id A hmem hk
    exact plan_thresh1_key cs id A hmem hk
  · intro id A hk
    exact plan_thresh1_single_key id A hk

/-- Witness for C1 at a concrete single-key threshold and asset set. -/
theorem claim1_vault_planning_witness :
    (Condition.key 0 ∈ [Condition.key 0] ∧
      holdsKey [Asset.hasKey 0] 0 = true) ∧
    (∃ p, plan (.thresh 1 [Condition.key 0]) [Asset.hasKey 0] = .ok p ∧
      stepsCost p.steps ≤ 1) ∧
    plan (.thresh 1 [Condition.key 0]) [Asset.hasKey 0] =
      .ok ⟨[.signKey 0], 0, 0⟩ :=
  ⟨⟨List.mem_singleton.mpr rfl, rfl⟩,
    claim1_vault_planning.2.2.1 [Condition.key 0] 0 [Asset.hasKey 0]
      (List.mem_singleton.mpr rfl) rfl,
    claim1_vault_planning.2.2.2 0 [Asset.hasKey 0] rfl⟩

/-- **C2**: if the Finalizer reports success, re-evaluating the
condition tree against the emitted witness bytes independently
evaluates to satisfied; the verdict is derived by re-checking each leaf
against the actual signature/preimage bytes present, never from the
Plan's earlier claim (the context's `planned` field is irrelevant to
the result). -/
theorem claim2_finalizer_soundness (verify : Nat → Nat → Bool)
    (hashFn : Nat → Nat) (T : Condition) (ctx : SigningContext)
    (w : List WitnessItem) (h : finalize verify hashFn T ctx = .ok w) :
    evalCond verify hashFn (sigsOfWitness w) (preimagesOfWitness w)
        ctx.txLocktime ctx.txSequence T = true ∧
    evalCond verify hashFn ctx.sigs ctx.preimages ctx.txLocktime
        ctx.txSequence T = true ∧
    ∀ p1 p2 : Option Plan,
      finalize verify hashFn T {ctx with planned := p1} =
        finalize verify hashFn T {ctx with planned := p2} := by
  obtain ⟨h1, _, h3⟩ := finalize_sound verify hashFn T ctx w h
  exact ⟨h3, h1, fun p1 p2 =>
    finalize_ignores_planned verify hashFn T ctx p1 p2⟩

/-- Witness for C2 at a concrete key leaf, context and verifier. -/
theorem claim2_finalizer_soundness_witness :
    finalize (fun _ _ => true) (fun n => n) (.key 5)
        ⟨[(5, 77)], [], 0, 0, some ⟨[], 0, 0⟩⟩ = .ok [.sigItem 5 77] ∧
    evalCond (fun _ _ => true) (fun n => n)
      (sigsOfWitness [.sigItem 5 77]) (preimagesOfWitness [.sigItem 5 77])
      0 0 (.key 5) = true :=
  ⟨rfl,
    (claim2_finalizer_soundness (fun _ _ => true) (fun n => n) (.key 5)
      ⟨[(5, 77)], [], 0, 0, some ⟨[], 0, 0⟩⟩ [.sigItem 5 77] rfl).1⟩

/-- **C3**: compilation is deterministic — two runs of the compiler on
identical policy text yield byte-identical locking-script output and
equal condition trees.  (Compilation is a pure function of the input
text, so determinism is inherited from function application.) -/
theorem claim3_compile_deterministic (t1 t2 : List Char) (h : t1 = t2) :
    scriptFromText t1 = scriptFromText t2 ∧
    compileFromText t1 = compileFromText t2 := by
  subst h
  exact ⟨rfl, rfl⟩

/-- Witness for C3 at the example's policy text. -/
theorem claim3_compile_deterministic_witness :
    vaultPolicyText = vaultPolicyText ∧
    (scriptFromText vaultPolicyText = scriptFromText vaultPolicyText ∧
      compileFromText vaultPolicyText = compileFromText vaultPolicyText) :=
  ⟨rfl, claim3_compile_deterministic vaultPolicyText vaultPolicyText rfl⟩

/-- **C4**: when the assets could satisfy the tree but every satisfying
assignment is pruned for requiring two different locktimes in one Plan
(no consistent candidate remains), the Planner fails
`ConflictingTimelock`; any Plan it does return is the projection of one
internally consistent candidate assignment (whose locktime commitments
were merged as equal), so its single global locktime is consistent with
exactly the branch chosen.  Concretely, `and(after(100), after(200))`
with both timelock assets held fails `ConflictingTimelock`, and the
spec's `or(and(pk(A),after(100)), and(pk(B),after(200)))` scenario with
all four assets yields the key-A branch under locktime 100. -/
theorem claim4_conflicting_timelock :
    (∀ (T : Condition) (A : AssetSet),
      satisfiable A T = true → candidates A T = [] →
      plan T A = .error .conflictingTimelock) ∧
    (∀ (T : Condition) (A : AssetSet) (p : Plan),
      plan T A = .ok p → ∃ c ∈ candidates A T, p = toPlan c) ∧
    plan (.thresh 2 [.after 100, .after 200])
      [.timeAfter 100, .timeAfter 200] = .error .conflictingTimelock ∧
    plan (.thresh 1 [.thresh 2 [.key 1, .after 100],
        .thresh 2 [.key 2, .after 200]])
      [.hasKey 1, .hasKey 2, .timeAfter 100, .timeAfter 200] =
      .ok ⟨[.signKey 1], 100, 0⟩ := by
  refine ⟨?_, ?_, rfl, rfl⟩
  · intro T A hsat hnone
    unfold plan
    rw [hnone]
    simp [selectBest, hsat]
  · intro T A p hp
    unfold plan at hp
    cases hsel : selectBest (candidates A T) with
    | none =>
      rw [hsel] at hp
      have hp2 : (if satisfiable A T then
          (.error .conflictingTimelock : Except PlanError Plan)
        else .error .unsatisfiable) = .ok p := hp
      split at hp2 <;> simp at hp2
    | some c =>
      rw [hsel] at hp
      have hp2 : (Except.ok (toPlan c) : Except PlanError Plan) = .ok p := hp
      rw [Except.ok.injEq] at hp2
      exact ⟨c, selectBest_mem hsel, hp2.symm⟩

/-- Witness for C4 at the conflicting pair and at the vault plan. -/
theorem claim4_conflicting_timelock_witness :
    (satisfiable [Asset.timeAfter 100, Asset.timeAfter 200]
        (.thresh 2 [.after 100, .after 200]) = true ∧
      candidates [Asset.timeAfter 100, Asset.timeAfter 200]
        (.thresh 2 [.after 100, .after 200]) = [] ∧
      plan (.thresh 2 [.after 100, .after 200])
        [Asset.timeAfter 100, Asset.timeAfter 200] =
        .error .conflictingTimelock) ∧
    (plan vaultTree [Asset.hasKey emergencyPk] =
        .ok ⟨[.signKey emergencyPk], 0, 0⟩ ∧
      ∃ c ∈ candidates [Asset.hasKey emergencyPk] vaultTree,
        (⟨[.signKey emergencyPk], 0, 0⟩ : Plan) = toPlan c) :=
  ⟨⟨rfl, rfl,
    claim4_conflicting_timelock.1 (.thresh 2 [.after 100, .after 200])
      [Asset.timeAfter 100, Asset.timeAfter 200] rfl rfl⟩,
    ⟨rfl, claim4_conflicting_timelock.2.1 vaultTree [Asset.hasKey emergencyPk]
      ⟨[.signKey emergencyPk], 0, 0⟩ rfl⟩⟩

/-- **C5**: for the vault policy, the empty Asset Set and
`{HasKey(unvault)}` without the timelock both fail `Unsatisfiable`;
in general the Planner returns a Plan only when some assignment
consistent with the Asset Set satisfies the tree, and when the tree is
not satisfiable with the assets it fails `Unsatisfiable`. -/
theorem claim5_unsatisfiable :
    plan vaultTree assetsNew = .error .unsatisfiable ∧
    plan vaultTree (addAsset assetsNew (.hasKey unvaultPk)) =
      .error .unsatisfiable ∧
    (∀ (T : Condition) (A : AssetSet) (p : Plan),
      plan T A = .ok p → satisfiable A T = true) ∧
    (∀ (T : Condition) (A : AssetSet),
      satisfiable A T = false → plan T A = .error .unsatisfiable) := by
  refine ⟨rfl, rfl, ?_, ?_⟩
  · intro T A p hp
    unfold plan at hp
    cases hsel : selectBest (candidates A T) with
    | none =>
      rw [hsel] at hp
      have hp2 : (if satisfiable A T then
          (.error .conflictingTimelock : Except PlanError Plan)
        else .error .unsatisfiable) = .ok p := hp
      split at hp2 <;> simp at hp2
    | some c =>
      exact mem_candidates_satisfiable A T c (selectBest_mem hsel)
  · intro T A hsat
    have hnone : candidates A T = [] := by
      cases hc : candidates A T with
      | nil => rfl
      | cons c cs =>
        have hs := mem_candidates_satisfiable A T c
          (by rw [hc]; exact List.mem_cons_self _ _)
        rw [hs] at hsat
        simp at hsat
    unfold plan
    rw [hnone]
    simp [selectBest, hsat]

/-- Witness for C5 at the vault tree with and without usable assets. -/
theorem claim5_unsatisfiable_witness :
    (plan vaultTree [Asset.hasKey emergencyPk] =
        .ok ⟨[.signKey emergencyPk], 0, 0⟩ ∧
      satisfiable [Asset.hasKey emergencyPk] vaultTree = true) ∧
    (satisfiable ([] : AssetSet) vaultTree = false ∧
      plan vaultTree [] = .error .unsatisfiable) :=
  ⟨⟨rfl, claim5_unsatisfiable.2.2.1 vaultTree [Asset.hasKey emergencyPk]
      ⟨[.signKey emergencyPk], 0, 0⟩ rfl⟩,
    ⟨rfl, claim5_unsatisfiable.2.2.2 vaultTree [] rfl⟩⟩

/-- **C6**: every locking script produced by the Compiler round-trips
losslessly — deserializing it recovers the compiled condition tree, and
re-serializing yields exactly the original script bytes. -/
theorem claim6_script_roundtrip (p : Policy) (c : Condition)
    (h : compile p = .ok c) :
    deserialize (serializeCond c) = some c ∧
    (deserialize (serializeCond c)).map serializeCond =
      some (serializeCond c) := by
  have hd := deserialize_serializeCond c
  exact ⟨hd, by rw [hd]; rfl⟩

/-- Witness for C6 at the vault policy's compiled tree. -/
theorem claim6_script_roundtrip_witness :
    compile vaultPolicy = .ok vaultTree ∧
    (deserialize (serializeCond vaultTree) = some vaultTree ∧
      (deserialize (serializeCond vaultTree)).map serializeCond =
        some (serializeCond vaultTree)) :=
  ⟨rfl, claim6_script_roundtrip vaultPolicy vaultTree rfl⟩

/-- **C7**: adding the same asset twice is idempotent for planning, and
planning depends only on the members of the Asset Set, not on insertion
order. -/
theorem claim7_asset_set_unordered :
    (∀ (T : Condition) (A : AssetSet) (x : Asset),
      plan T (addAsset (addAsset A x) x) = plan T (addAsset A x)) ∧
    (∀ (T : Condition) (A1 A2 : AssetSet),
      (∀ a : Asset, a ∈ A1 ↔ a ∈ A2) → plan T A1 = plan T A2) := by
  constructor
  · intro T A x
    apply plan_congr
    intro a
    simp only [addAsset, List.mem_cons]
    tauto
  · intro T A1 A2 H
    exact plan_congr H T

/-- Witness for C7 at the vault tree with a duplicated and a reordered
asset set. -/
theorem claim7_asset_set_unordered_witness :
    plan vaultTree (addAsset (addAsset assetsNew (.hasKey emergencyPk))
        (.hasKey emergencyPk)) =
      plan vaultTree (addAsset assetsNew (.hasKey emergencyPk)) ∧
    ((∀ a : Asset,
        a ∈ [Asset.hasKey unvaultPk, Asset.timeAfter vaultAfter] ↔
        a ∈ [Asset.timeAfter vaultAfter, Asset.hasKey unvaultPk]) ∧
      plan vaultTree [Asset.hasKey unvaultPk, Asset.timeAfter vaultAfter] =
        plan vaultTree [Asset.timeAfter vaultAfter, Asset.hasKey unvaultPk]) :=
  ⟨claim7_asset_set_unordered.1 vaultTree assetsNew (.hasKey emergencyPk),
    ⟨fun a => by constructor <;> (intro h; simp only [List.mem_cons] at h ⊢; tauto),
      claim7_asset_set_unordered.2 vaultTree _ _ fun a => by
        constructor <;> (intro h; simp only [List.mem_cons] at h ⊢; tauto)⟩⟩

/-- **C8**: constructing a `Threshold` with `k` outside
`0 < k <= len(children)`, or with an empty children sequence, is
rejected at construction with `MalformedCondition`; every condition
tree the compiler produces is well formed. -/
theorem claim8_threshold_validation :
    (∀ (k : Nat) (cs : List Condition),
      mkThresh k cs = .error .malformedCondition ↔
        ¬(0 < k ∧ k ≤ cs.length)) ∧
    (∀ k : Nat,
      mkThresh k ([] : List Condition) = .error .malformedCondition) ∧
    (∀ (p : Policy) (c : Condition),
      compile p = .ok c → wellFormed c = true) := by
  refine ⟨mkThresh_error_iff, ?_, compile_wellFormed⟩
  intro k
  rw [mkThresh_error_iff]
  simp
  omega

/-- Witness for C8 at concrete malformed thresholds and the vault
policy. -/
theorem claim8_threshold_validation_witness :
    mkThresh 0 [Condition.key 0] = .error .malformedCondition ∧
    mkThresh 3 [Condition.key 0] = .error .malformedCondition ∧
    mkThresh 1 ([] : List Condition) = .error .malformedCondition ∧
    (compile vaultPolicy = .ok vaultTree ∧ wellFormed vaultTree = true) :=
  ⟨(claim8_threshold_validation.1 0 [Condition.key 0]).mpr (by decide),
    (claim8_threshold_validation.1 3 [Condition.key 0]).mpr (by decide),
    claim8_threshold_validation.2.1 1,
    ⟨rfl, claim8_threshold_validation.2.2 vaultPolicy vaultTree rfl⟩⟩

/-- **C9** (implicit): `get_vout` returns the outpoint (the
transaction's txid plus index) and `TxOut` of the lowest-index output
whose script pubkey equals `spk`; when no output matches it panics
(modelled as `none`) instead of returning a value. -/
theorem claim9_get_vout :
    (∀ (tx : TransactionM) (spk : List Nat) (op : OutPointM) (t : TxOutM),
      getVout tx spk = some (op, t) →
      op.txid = computeTxid tx ∧ t.script_pubkey = spk ∧
      ∃ pre post, tx.output = pre ++ t :: post ∧ op.vout = pre.length ∧
        ∀ o ∈ pre, o.script_pubkey ≠ spk) ∧
    (∀ (tx : TransactionM) (spk : List Nat),
      (∀ o ∈ tx.output, o.script_pubkey ≠ spk) → getVout tx spk = none) := by
  constructor
  · intro tx spk op t h
    obtain ⟨h1, h2, pre, post, h3, h4, h5⟩ :=
      getVoutAux_eq_some (computeTxid tx) spk tx.output 0 op t h
    exact ⟨h1, h2, pre, post, h3, by omega, h5⟩
  · intro tx spk h
    exact getVoutAux_eq_none (computeTxid tx) spk tx.output 0 h

/-- Witness for C9 at a one-output deposit transaction. -/
theorem claim9_get_vout_witness :
    getVout (depositTransaction ⟨[2]⟩) [2] =
      some (⟨computeTxid (depositTransaction ⟨[2]⟩), 0⟩, ⟨76000, [2]⟩) ∧
    ((⟨computeTxid (depositTransaction ⟨[2]⟩), 0⟩ : OutPointM).txid =
        computeTxid (depositTransaction ⟨[2]⟩) ∧
      (⟨76000, [2]⟩ : TxOutM).script_pubkey = [2] ∧
      ∃ pre post, (depositTransaction ⟨[2]⟩).output =
          pre ++ (⟨76000, [2]⟩ : TxOutM) :: post ∧
        (⟨computeTxid (depositTransaction ⟨[2]⟩), 0⟩ : OutPointM).vout =
          pre.length ∧
        ∀ o ∈ pre, o.script_pubkey ≠ [2]) ∧
    getVout (depositTransaction ⟨[2]⟩) [9] = none :=
  ⟨rfl,
    claim9_get_vout.1 (depositTransaction ⟨[2]⟩) [2]
      ⟨computeTxid (depositTransaction ⟨[2]⟩), 0⟩ ⟨76000, [2]⟩ rfl,
    claim9_get_vout.2 (depositTransaction ⟨[2]⟩) [9] (by decide)⟩

/-- **C10** (implicit): `deposit_transaction` returns a version-1
transaction with locktime ZERO, exactly one input spending the
all-zeros txid at vout 0, and exactly one output of 76 000 sats paying
the receive address; consequently `get_vout` on it succeeds and returns
vout index 0. -/
theorem claim10_deposit_transaction (a : AddressM) :
    (depositTransaction a).version = 1 ∧
    (depositTransaction a).lock_time = 0 ∧
    (depositTransaction a).input =
      [⟨⟨txidAllZeros, 0⟩, [], sequenceDefault, []⟩] ∧
    (depositTransaction a).output = [⟨76000, a.script_pubkey⟩] ∧
    getVout (depositTransaction a) a.script_pubkey =
      some (⟨computeTxid (depositTransaction a), 0⟩,
        ⟨76000, a.script_pubkey⟩) := by
  refine ⟨rfl, rfl, rfl, rfl, ?_⟩
  show getVoutAux (computeTxid (depositTransaction a)) a.script_pubkey 0
    [⟨76000, a.script_pubkey⟩] = _
  rw [getVoutAux, if_pos rfl]

end BdkPlan
